import Mathlib

/-!
Verification of the temporal decision core of `emotion_music_player.py`
(repository `abeersethia/Emotion_MusicPlayer_CV`).

The embedding translates, from the source:
  * the emotion normalizer `get_dominant_emotion_category` (lines 85-115),
  * the temporal smoother: the `deque(maxlen=10)` history and
    `get_smoothed_emotion` (lines 117-137),
  * the stability gate of the main loop `run` (lines 269-287),
  * the playback selector `play_song_for_emotion` (lines 159-183).

Raw emotion dictionaries are modelled as association lists `List (String × ℚ)`
in Python-dict iteration (= insertion) order; `time.time()` timestamps are
rationals; `random.choice` is modelled by an oracle index reduced modulo the
list length; success or failure of the pygame load/play calls is an oracle
boolean.
-/

/-- The three simplified mood categories of the player
(the keys of `self.emotion_categories` and `self.songs`). -/
inductive Mood where
  | happy
  | sad
  | neutral
deriving DecidableEq, Repr

/-- `self.confidence_threshold = 0.3` (line 52). -/
def confidence_threshold : ℚ := 3 / 10

/-- `self.emotion_categories` (lines 56-60), a dict in insertion order:
fer's fine-grained labels grouped into the three moods. -/
def emotion_categories : List (Mood × List String) :=
  [(Mood.happy, ["happy"]),
   (Mood.sad, ["sad", "fear", "angry"]),
   (Mood.neutral, ["neutral", "surprise", "disgust"])]

/-- Python's `max(emotions.items(), key=lambda x: x[1])` (line 100): fold over
the remaining items keeping the current best, replacing it only on a strictly
larger score, so the first-encountered item wins ties. -/
def maxItem (best : String × ℚ) : List (String × ℚ) → String × ℚ
  | [] => best
  | e :: es => maxItem (if e.2 > best.2 then e else best) es

/-- One pass of the mapping loop of lines 108-111: the first group whose
label list contains the dominant label wins and the loop breaks. -/
def firstGroup (label : String) : List (Mood × List String) → Mood
  | [] => Mood.neutral
  | (c, ls) :: rest => if label ∈ ls then c else firstGroup label rest

/-- The mapping of lines 107-111: `category = 'neutral'` as default, then the
loop over `emotion_categories`. -/
def categoryOf (label : String) : Mood :=
  firstGroup label emotion_categories

/-- `get_dominant_emotion_category(emotions, return_confidence=True)`
(lines 85-115): empty dict gives `(None, 0.0)`; otherwise take the max-scoring
entry, return `(None, score)` below the confidence threshold, else map the
winning label through the grouping table. -/
def get_dominant_emotion_category (emotions : List (String × ℚ)) :
    Option Mood × ℚ :=
  match emotions with
  | [] => (none, 0)
  | e :: es =>
    let d := maxItem e es
    if d.2 < confidence_threshold then (none, d.2)
    else (some (categoryOf d.1), d.2)

/-- The `return_confidence=False` variant of the same function: the code
computes the same branches and drops the score. -/
def get_dominant_emotion_category_plain (emotions : List (String × ℚ)) :
    Option Mood :=
  (get_dominant_emotion_category emotions).1

/-- The item picked by Python's `max` is one of the items. -/
theorem maxItem_mem (best : String × ℚ) (es : List (String × ℚ)) :
    maxItem best es ∈ best :: es := by
  induction es generalizing best with
  | nil => simp [maxItem]
  | cons e es ih =>
    simp only [maxItem]
    have h := ih (if e.2 > best.2 then e else best)
    by_cases hc : e.2 > best.2 <;>
      simp only [hc, if_pos, if_neg, List.mem_cons, if_true, if_false] at h ⊢ <;>
      tauto

/-- The item picked by Python's `max` has the maximal score. -/
theorem maxItem_le (best : String × ℚ) (es : List (String × ℚ)) :
    best.2 ≤ (maxItem best es).2 ∧ ∀ e ∈ es, e.2 ≤ (maxItem best es).2 := by
  induction es generalizing best with
  | nil => simp [maxItem]
  | cons e es ih =>
    simp only [maxItem]
    rcases ih (if e.2 > best.2 then e else best) with ⟨h1, h2⟩
    constructor
    · refine le_trans ?_ h1
      by_cases hc : e.2 > best.2 <;> simp [hc]
      exact le_of_lt hc
    · intro x hx
      rcases List.mem_cons.mp hx with hx | hx
      · subst hx
        refine le_trans ?_ h1
        by_cases hc : x.2 > best.2 <;> simp [hc]
        exact le_of_not_lt hc
      · exact h2 x hx

/-- C3: for every non-empty raw score mapping whose maximum score is strictly
below the confidence threshold (default 0.3), `get_dominant_emotion_category`
returns `None` with the maximum score as the reported confidence, regardless
of which labels the mapping contains. -/
theorem normalizer_below_threshold_none (e : String × ℚ) (es : List (String × ℚ))
    (h : ∀ p ∈ e :: es, p.2 < confidence_threshold) :
    get_dominant_emotion_category (e :: es) = (none, (maxItem e es).2) ∧
    ∀ p ∈ e :: es, p.2 ≤ (maxItem e es).2 := by
  have hmax : (maxItem e es).2 < confidence_threshold := h _ (maxItem_mem e es)
  refine ⟨by simp [get_dominant_emotion_category, hmax], ?_⟩
  intro p hp
  rcases List.mem_cons.mp hp with hp | hp
  · exact hp ▸ (maxItem_le e es).1
  · exact (maxItem_le e es).2 p hp

/-- Witness for C3 at the concrete mapping `{"happy": 0.1, "sad": 0.2}`. -/
theorem normalizer_below_threshold_none_witness :
    get_dominant_emotion_category [("happy", 1/10), ("sad", 2/10)] =
      (none, 2/10) := by
  have h := normalizer_below_threshold_none ("happy", 1/10) [("sad", 2/10)]
    (by intro p hp; fin_cases hp <;> norm_num [confidence_threshold])
  have he : maxItem ("happy", 1/10) [("sad", 2/10)] = ("sad", 2/10) := by
    norm_num [maxItem]
  rw [he] at h
  exact h.1

/-- C4: for every non-empty raw score mapping whose maximum score meets the
threshold, the winning fine-grained label is mapped through the fixed grouping
table: happy→happy; sad, fear, angry→sad; neutral, surprise, disgust→neutral;
any label outside the table yields neutral. -/
theorem normalizer_grouping_table (e : String × ℚ) (es : List (String × ℚ))
    (h : ¬ (maxItem e es).2 < confidence_threshold) :
    (get_dominant_emotion_category (e :: es)).1 =
      some (categoryOf (maxItem e es).1) ∧
    categoryOf "happy" = Mood.happy ∧
    categoryOf "sad" = Mood.sad ∧
    categoryOf "fear" = Mood.sad ∧
    categoryOf "angry" = Mood.sad ∧
    categoryOf "neutral" = Mood.neutral ∧
    categoryOf "surprise" = Mood.neutral ∧
    categoryOf "disgust" = Mood.neutral ∧
    ∀ l : String,
      l ∉ (["happy", "sad", "fear", "angry", "neutral", "surprise", "disgust"] :
        List String) → categoryOf l = Mood.neutral := by
  refine ⟨by simp [get_dominant_emotion_category, h], by decide, by decide,
    by decide, by decide, by decide, by decide, by decide, ?_⟩
  intro l hl
  simp only [List.mem_cons, List.not_mem_nil, not_or, or_false] at hl
  obtain ⟨h1, h2, h3, h4, h5, h6, h7⟩ := hl
  simp [categoryOf, firstGroup, emotion_categories, h1, h2, h3, h4, h5, h6, h7]

/-- Witness for C4 at the concrete mapping `{"angry": 0.9}`: the winner
"angry" is grouped into the sad mood. -/
theorem normalizer_grouping_table_witness :
    (get_dominant_emotion_category [("angry", 9/10)]).1 = some Mood.sad := by
  have h := normalizer_grouping_table ("angry", 9/10) []
    (by norm_num [maxItem, confidence_threshold])
  have he : maxItem ("angry", 9/10) [] = ("angry", 9/10) := rfl
  rw [he] at h
  exact h.1.trans (by rw [h.2.2.2.2.1])

/-- C10: on the empty score mapping (outside the spec's non-empty
precondition) the normalizer returns `(None, 0.0)` — `None` in the plain
variant — rather than raising; both variants are total Lean functions. -/
theorem normalizer_empty_total :
    get_dominant_emotion_category [] = (none, 0) ∧
    get_dominant_emotion_category_plain [] = none :=
  ⟨rfl, rfl⟩

/-- `deque(maxlen=10)` append (lines 51 and 243): the newest reading goes to
the right end and, at capacity, the oldest (leftmost) entry is evicted. Only
non-null categories are ever appended (line 241 guards the append). -/
def pushHistory (h : List Mood) (m : Mood) : List Mood :=
  if h.length < 10 then h ++ [m] else h.tail ++ [m]

/-- One step of building `emotion_counts` (lines 128-131): a Python dict gains
a key at the end of its iteration order the first time it is seen. -/
def addKey (ks : List Mood) (m : Mood) : List Mood :=
  if m ∈ ks then ks else ks ++ [m]

/-- The keys of `emotion_counts` in dict iteration order: order of first
occurrence while scanning the history oldest-to-newest. The count of a key
`k` is `h.count k`. -/
def occKeys (h : List Mood) : List Mood :=
  h.foldl addKey []

/-- Python's `max(emotion_counts.items(), key=lambda x: x[1])[0]` (line 137):
scan the keys keeping the current best, replacing only on a strictly larger
count, so the earliest-inserted key wins ties. -/
def pickMax (h : List Mood) (best : Mood) : List Mood → Mood
  | [] => best
  | k :: ks => pickMax h (if h.count k > h.count best then k else best) ks

/-- `get_smoothed_emotion` (lines 117-137): `None` below 3 readings, else the
most frequent category of the history (the `if emotion:` filter of line 130 is
trivial here since only non-null categories are appended). -/
def get_smoothed_emotion (h : List Mood) : Option Mood :=
  if h.length < 3 then none
  else
    match occKeys h with
    | [] => none
    | k :: ks => some (pickMax h k ks)

/-- Membership in a dict key list after one insertion step. -/
theorem mem_addKey (ks : List Mood) (m x : Mood) :
    x ∈ addKey ks m ↔ x ∈ ks ∨ x = m := by
  by_cases h : m ∈ ks
  · simp only [addKey, if_pos h]
    constructor
    · exact Or.inl
    · rintro (hx | rfl) <;> [exact hx; exact h]
  · simp [addKey, if_neg h]

/-- Membership in the accumulated dict key list. -/
theorem mem_foldl_addKey (h : List Mood) :
    ∀ (ks : List Mood) (x : Mood),
      x ∈ List.foldl addKey ks h ↔ x ∈ ks ∨ x ∈ h := by
  induction h with
  | nil => simp
  | cons m ms ih =>
    intro ks x
    simp only [List.foldl_cons, ih, mem_addKey, List.mem_cons]
    tauto

/-- The keys of `emotion_counts` are exactly the moods present in the
history. -/
theorem mem_occKeys (h : List Mood) (x : Mood) :
    x ∈ occKeys h ↔ x ∈ h := by
  simp [occKeys, mem_foldl_addKey]

/-- The key picked by Python's `max` over the counts is one of the keys. -/
theorem pickMax_mem (h : List Mood) (best : Mood) (ks : List Mood) :
    pickMax h best ks ∈ best :: ks := by
  induction ks generalizing best with
  | nil => simp [pickMax]
  | cons k ks ih =>
    simp only [pickMax]
    have hm := ih (if h.count k > h.count best then k else best)
    by_cases hc : h.count k > h.count best <;>
      simp only [hc, List.mem_cons, if_true, if_false] at hm ⊢ <;>
      tauto

/-- The key picked by Python's `max` has the maximal count. -/
theorem pickMax_count (h : List Mood) (best : Mood) (ks : List Mood) :
    h.count best ≤ h.count (pickMax h best ks) ∧
    ∀ k ∈ ks, h.count k ≤ h.count (pickMax h best ks) := by
  induction ks generalizing best with
  | nil => simp [pickMax]
  | cons k ks ih =>
    simp only [pickMax]
    rcases ih (if h.count k > h.count best then k else best) with ⟨h1, h2⟩
    constructor
    · refine le_trans ?_ h1
      by_cases hc : h.count k > h.count best <;> simp [hc]
      exact le_of_lt hc
    · intro y hy
      rcases List.mem_cons.mp hy with hy | hy
      · subst hy
        refine le_trans ?_ h1
        by_cases hc : h.count y > h.count best <;> simp [hc]
        exact le_of_not_lt hc
      · exact h2 y hy

/-- C2: `get_smoothed_emotion` returns `None` whenever the history has fewer
than 3 entries; after exactly 3 pushes of the same category it returns that
category; and whenever it returns a category, that category is a most
frequent one in the current history. -/
theorem smoother_majority :
    (∀ h : List Mood, h.length < 3 → get_smoothed_emotion h = none) ∧
    (∀ m : Mood,
      get_smoothed_emotion (List.foldl pushHistory [] [m, m, m]) = some m) ∧
    (∀ (h : List Mood) (m : Mood), get_smoothed_emotion h = some m →
      ∀ x : Mood, h.count x ≤ h.count m) := by
  refine ⟨?_, ?_, ?_⟩
  · intro h hlen
    simp [get_smoothed_emotion, hlen]
  · intro m
    cases m <;> rfl
  · intro h m hm x
    unfold get_smoothed_emotion at hm
    by_cases hlen : h.length < 3
    · simp [hlen] at hm
    · simp only [hlen, if_false] at hm
      rcases hk : occKeys h with _ | ⟨k, ks⟩
      · rw [hk] at hm; exact absurd hm (by simp)
      · rw [hk] at hm
        have hmeq : m = pickMax h k ks := by
          simpa using hm.symm
        subst hmeq
        by_cases hx : x ∈ h
        · have hx' : x ∈ k :: ks := hk ▸ (mem_occKeys h x).mpr hx
          rcases List.mem_cons.mp hx' with hx' | hx'
          · exact hx' ▸ (pickMax_count h k ks).1
          · exact (pickMax_count h k ks).2 x hx'
        · simp [List.count_eq_zero.mpr hx]

/-- Witness for C2: a short history gives `None`, three identical pushes give
that mood, and on `[sad, happy, happy]` the returned mood has maximal
count. -/
theorem smoother_majority_witness :
    get_smoothed_emotion [Mood.happy, Mood.sad] = none ∧
    get_smoothed_emotion
      (List.foldl pushHistory [] [Mood.happy, Mood.happy, Mood.happy]) =
      some Mood.happy ∧
    List.count Mood.sad [Mood.sad, Mood.happy, Mood.happy] ≤
      List.count Mood.happy [Mood.sad, Mood.happy, Mood.happy] :=
  ⟨smoother_majority.1 [Mood.happy, Mood.sad] (by decide),
   smoother_majority.2.1 Mood.happy,
   smoother_majority.2.2 [Mood.sad, Mood.happy, Mood.happy] Mood.happy
     (by decide) Mood.sad⟩

/-- Folding pushes that stay within capacity is plain concatenation. -/
theorem foldl_pushHistory_short (ms : List Mood) :
    ∀ h : List Mood, h.length + ms.length ≤ 10 →
      List.foldl pushHistory h ms = h ++ ms := by
  induction ms with
  | nil => intro h _; simp
  | cons m ms ih =>
    intro h hle
    have hlt : h.length < 10 := by
      simp only [List.length_cons] at hle; omega
    have hstep : pushHistory h m = h ++ [m] := by
      simp [pushHistory, hlt]
    have := ih (h ++ [m]) (by
      simp only [List.length_append, List.length_cons, List.length_nil] at hle ⊢
      omega)
    simp only [List.foldl_cons, hstep, this, List.append_assoc,
      List.singleton_append]

/-- Folding pushes that overflow capacity by exactly one evicts exactly the
oldest entry. -/
theorem foldl_pushHistory_overflow (ms : List Mood) :
    ∀ h : List Mood, h.length ≤ 10 → h.length + ms.length = 11 →
      List.foldl pushHistory h ms = (h ++ ms).tail := by
  induction ms with
  | nil =>
    intro h h10 h11
    simp only [List.length_nil] at h11
    omega
  | cons m ms ih =>
    intro h h10 h11
    by_cases hlt : h.length < 10
    · have hstep : pushHistory h m = h ++ [m] := by
        simp [pushHistory, hlt]
      have := ih (h ++ [m])
        (by simp only [List.length_append, List.length_cons,
          List.length_nil] at h11 ⊢; omega)
        (by simp only [List.length_append, List.length_cons,
          List.length_nil] at h11 ⊢; omega)
      simp only [List.foldl_cons, hstep, this, List.append_assoc,
        List.singleton_append]
    · have hlen : h.length = 10 := by omega
      have hms : ms = [] := by
        have : ms.length = 0 := by
          simp only [List.length_cons] at h11; omega
        exact List.length_eq_zero.mp this
      subst hms
      have hne : h ≠ [] := by
        intro hc; rw [hc] at hlen; simp at hlen
      simp only [List.foldl_cons, List.foldl_nil, pushHistory, hlt, if_false]
      exact (List.tail_append_of_ne_nil hne).symm

/-- C5: starting within capacity, the emotion history never exceeds length
10 under any sequence of pushes; and after 11 pushes from empty, the history
is exactly the 11-push sequence minus its first entry — the oldest entry is
evicted first-in-first-out. -/
theorem history_capacity :
    (∀ (ms : List Mood) (h : List Mood), h.length ≤ 10 →
      (List.foldl pushHistory h ms).length ≤ 10) ∧
    (∀ ms : List Mood, ms.length = 11 →
      List.foldl pushHistory [] ms = ms.tail) := by
  constructor
  · intro ms
    induction ms with
    | nil => intro h hle; simpa using hle
    | cons m ms ih =>
      intro h hle
      have : (pushHistory h m).length ≤ 10 := by
        by_cases hlt : h.length < 10 <;>
          simp only [pushHistory, hlt, if_true, if_false, List.length_append,
            List.length_singleton, List.length_tail] <;> omega
      simpa using ih (pushHistory h m) this
  · intro ms h11
    have := foldl_pushHistory_overflow ms [] (by simp) (by simpa using h11)
    simpa using this

/-- Witness for C5: eleven pushes starting from a sad reading keep the length
at 10 and evict exactly that first reading. -/
theorem history_capacity_witness :
    (List.foldl pushHistory []
      (Mood.sad :: List.replicate 10 Mood.happy)).length ≤ 10 ∧
    List.foldl pushHistory [] (Mood.sad :: List.replicate 10 Mood.happy) =
      List.replicate 10 Mood.happy :=
  ⟨history_capacity.1 (Mood.sad :: List.replicate 10 Mood.happy) [] (by decide),
   (history_capacity.2 (Mood.sad :: List.replicate 10 Mood.happy)
     (by decide)).trans (by decide)⟩

/-- `self.emotion_stability_threshold = 3` seconds (line 48). -/
def emotion_stability_threshold : ℚ := 3

/-- The mutable state of the stability gate inside `run` (lines 204-207, 269-287):
the committed mood `self.current_emotion`, the candidate `pending_emotion`,
and `pending_emotion_time` (meaningful only while a candidate is pending; the
code never clears the timestamp variable, only `pending_emotion`). -/
structure GateState where
  current_emotion : Option Mood
  pending_emotion : Option Mood
  pending_emotion_time : ℚ
deriving DecidableEq, Repr

/-- The outcome of one analyzed frame of the gate: the new state, the mood a
stability commit started playing (`play_song_for_emotion(smoothed_emotion)`,
line 275), and the mood a natural track-end replay started playing
(`play_song_for_emotion(self.current_emotion)`, line 287). -/
structure StepOut where
  state : GateState
  commit : Option Mood
  replay : Option Mood
deriving DecidableEq, Repr

/-- One analyzed frame of the stability gate (lines 269-287), driven by the
smoothed mood of the frame, the frame's `time.time()` value, and the pygame
`get_busy()` poll. Python's truthiness: `smoothed_emotion and smoothed_emotion
!= self.current_emotion` takes the first branch only for a non-None smoothed
mood differing from the committed one; `elif smoothed_emotion ==
self.current_emotion` also fires when both are `None`. -/
def gateStep (st : GateState) (smoothed : Option Mood) (now : ℚ) (busy : Bool) :
    StepOut :=
  match smoothed with
  | some s =>
    if some s ≠ st.current_emotion then
      if st.pending_emotion = some s then
        if now - st.pending_emotion_time ≥ emotion_stability_threshold then
          ⟨⟨some s, none, st.pending_emotion_time⟩, some s, none⟩
        else ⟨st, none, none⟩
      else ⟨⟨st.current_emotion, some s, now⟩, none, none⟩
    else
      if busy = false ∧ st.current_emotion ≠ none then
        ⟨⟨st.current_emotion, none, st.pending_emotion_time⟩, none,
          st.current_emotion⟩
      else ⟨⟨st.current_emotion, none, st.pending_emotion_time⟩, none, none⟩
  | none =>
    if st.current_emotion = none then
      ⟨⟨st.current_emotion, none, st.pending_emotion_time⟩, none, none⟩
    else ⟨st, none, none⟩

/-- Iterating the gate over a list of analyzed frames, collecting the commit
signals frame by frame. -/
def runGate (st : GateState) :
    List (Option Mood × ℚ × Bool) → GateState × List (Option Mood)
  | [] => (st, [])
  | (s, t, b) :: rest =>
    let o := gateStep st s t b
    let r := runGate o.state rest
    (r.1, o.commit :: r.2)

/-- A new candidate (differing from both the committed mood and any pending
candidate) arms the dwell timer at the current frame time; no commit. -/
theorem gateStep_arm (st : GateState) (s : Mood) (t : ℚ) (b : Bool)
    (hs : some s ≠ st.current_emotion) (hp : st.pending_emotion ≠ some s) :
    gateStep st (some s) t b =
      ⟨⟨st.current_emotion, some s, t⟩, none, none⟩ := by
  simp [gateStep, hs, hp]

/-- The pending candidate seen again before the dwell elapses: no change, no
commit. -/
theorem gateStep_hold (st : GateState) (s : Mood) (t : ℚ) (b : Bool)
    (hs : some s ≠ st.current_emotion) (hp : st.pending_emotion = some s)
    (ht : ¬ t - st.pending_emotion_time ≥ emotion_stability_threshold) :
    gateStep st (some s) t b = ⟨st, none, none⟩ := by
  simp [gateStep, hs, hp, ht]

/-- The pending candidate seen again once the dwell has elapsed: commit. -/
theorem gateStep_fire (st : GateState) (s : Mood) (t : ℚ) (b : Bool)
    (hs : some s ≠ st.current_emotion) (hp : st.pending_emotion = some s)
    (ht : t - st.pending_emotion_time ≥ emotion_stability_threshold) :
    gateStep st (some s) t b =
      ⟨⟨some s, none, st.pending_emotion_time⟩, some s, none⟩ := by
  simp [gateStep, hs, hp, ht]

/-- The smoothed mood equals the committed mood: pending is reset; a replay
fires exactly when the mixer is idle. -/
theorem gateStep_same (st : GateState) (s : Mood) (t : ℚ) (b : Bool)
    (hs : st.current_emotion = some s) :
    gateStep st (some s) t b =
      ⟨⟨st.current_emotion, none, st.pending_emotion_time⟩, none,
        if b then none else some s⟩ := by
  cases b <;> simp [gateStep, hs]

/-- Running the gate over concatenated frame lists. -/
theorem runGate_append (l1 l2 : List (Option Mood × ℚ × Bool)) :
    ∀ st : GateState,
      runGate st (l1 ++ l2) =
        ((runGate (runGate st l1).1 l2).1,
          (runGate st l1).2 ++ (runGate (runGate st l1).1 l2).2) := by
  induction l1 with
  | nil => intro st; simp [runGate]
  | cons p l1 ih =>
    intro st
    rcases p with ⟨s, t, b⟩
    simp only [List.cons_append, runGate, List.append_eq, ih]

/-- While every frame shows the same pending candidate and the dwell has not
elapsed, the gate state is held and no commit fires. -/
theorem runGate_hold (c s : Mood) (hne : s ≠ c) (t0 : ℚ)
    (frames : List (ℚ × Bool))
    (hall : ∀ p ∈ frames, p.1 - t0 < emotion_stability_threshold) :
    runGate ⟨some c, some s, t0⟩ (frames.map fun p => (some s, p.1, p.2)) =
      (⟨some c, some s, t0⟩, frames.map fun _ => none) := by
  induction frames with
  | nil => simp [runGate]
  | cons p frames ih =>
    rcases p with ⟨t, b⟩
    have hstep := gateStep_hold ⟨some c, some s, t0⟩ s t b
      (by simpa using hne) rfl
      (not_le.mpr (hall (t, b) (List.mem_cons_self _ _)))
    simp only [List.map_cons, runGate, hstep]
    rw [ih (fun p hp => hall p (List.mem_cons_of_mem _ hp))]

/-- C1: with committed mood `c` and a candidate `s ≠ c` observed continuously
on every analyzed frame: the first such frame arms the dwell timer with no
commit; every later frame strictly inside the dwell window leaves the state
held with no commit; the first frame at/after `stabilityThreshold` seconds
commits exactly there (committed mood becomes `s`, pending cleared); and if
the smoothed mood instead reverts to `c` before the dwell elapses, the
pending state is reset and no commit ever fires for that excursion. -/
theorem gate_stability_dwell (c s : Mood) (hne : s ≠ c) (tp t0 : ℚ) (b0 : Bool)
    (frames : List (ℚ × Bool))
    (hall : ∀ p ∈ frames, p.1 - t0 < emotion_stability_threshold)
    (tf : ℚ) (bf : Bool) (hf : tf - t0 ≥ emotion_stability_threshold)
    (tr : ℚ) :
    gateStep ⟨some c, none, tp⟩ (some s) t0 b0 =
      ⟨⟨some c, some s, t0⟩, none, none⟩ ∧
    runGate ⟨some c, some s, t0⟩ (frames.map fun p => (some s, p.1, p.2)) =
      (⟨some c, some s, t0⟩, frames.map fun _ => none) ∧
    runGate ⟨some c, some s, t0⟩
        (frames.map (fun p => (some s, p.1, p.2)) ++ [(some s, tf, bf)]) =
      (⟨some s, none, t0⟩, (frames.map fun _ => none) ++ [some s]) ∧
    runGate ⟨some c, some s, t0⟩
        (frames.map (fun p => (some s, p.1, p.2)) ++ [(some c, tr, true)]) =
      (⟨some c, none, t0⟩, (frames.map fun _ => none) ++ [none]) := by
  have hsc : (some s : Option Mood) ≠ some c := by simpa using hne
  have hhold := runGate_hold c s hne t0 frames hall
  refine ⟨gateStep_arm _ s t0 b0 hsc (by simp), hhold, ?_, ?_⟩
  · rw [runGate_append, hhold]
    have hfire := gateStep_fire ⟨some c, some s, t0⟩ s tf bf hsc rfl hf
    simp [runGate, hfire]
  · rw [runGate_append, hhold]
    have hsame := gateStep_same ⟨some c, some s, t0⟩ c tr true rfl
    simp [runGate, hsame]

/-- Witness for C1: committed neutral, candidate happy first pending at time
0, held at times 1 and 2, committing at time 3; reverting to neutral at time
5/2 instead resets the pending state with no commit. -/
theorem gate_stability_dwell_witness :
    gateStep ⟨some Mood.neutral, none, 0⟩ (some Mood.happy) 0 true =
      ⟨⟨some Mood.neutral, some Mood.happy, 0⟩, none, none⟩ ∧
    runGate ⟨some Mood.neutral, some Mood.happy, 0⟩
        ([((1 : ℚ), true), (2, true)].map fun p => (some Mood.happy, p.1, p.2)) =
      (⟨some Mood.neutral, some Mood.happy, 0⟩,
        [((1 : ℚ), true), (2, true)].map fun _ => none) ∧
    runGate ⟨some Mood.neutral, some Mood.happy, 0⟩
        (([((1 : ℚ), true), (2, true)].map fun p =>
            (some Mood.happy, p.1, p.2)) ++ [(some Mood.happy, 3, true)]) =
      (⟨some Mood.happy, none, 0⟩,
        ([((1 : ℚ), true), (2, true)].map fun _ => none) ++ [some Mood.happy]) ∧
    runGate ⟨some Mood.neutral, some Mood.happy, 0⟩
        (([((1 : ℚ), true), (2, true)].map fun p =>
            (some Mood.happy, p.1, p.2)) ++ [(some Mood.neutral, 5/2, true)]) =
      (⟨some Mood.neutral, none, 0⟩,
        ([((1 : ℚ), true), (2, true)].map fun _ => none) ++ [none]) :=
  gate_stability_dwell Mood.neutral Mood.happy (by decide) 0 0 true
    [((1 : ℚ), true), (2, true)]
    (by intro p hp; fin_cases hp <;> norm_num [emotion_stability_threshold])
    3 true (by norm_num [emotion_stability_threshold]) (5/2)

/-- C9: one gate step preserves the invariant that a pending candidate, when
present, differs from the committed mood; a commit always clears the pending
state; a fresh candidate (differing from the committed mood and from any
previous pending candidate) replaces the pending pair with that candidate
stamped at the current frame time; and a smoothed mood equal to the committed
mood clears the pending state. -/
theorem pending_differs_invariant (st : GateState) (s : Option Mood) (t : ℚ)
    (b : Bool)
    (hinv : st.pending_emotion.isSome →
      st.pending_emotion ≠ st.current_emotion) :
    ((gateStep st s t b).state.pending_emotion.isSome →
      (gateStep st s t b).state.pending_emotion ≠
        (gateStep st s t b).state.current_emotion) ∧
    ((gateStep st s t b).commit.isSome →
      (gateStep st s t b).state.pending_emotion = none) ∧
    (∀ x : Mood, s = some x → some x ≠ st.current_emotion →
      st.pending_emotion ≠ some x →
      (gateStep st s t b).state.pending_emotion = some x ∧
      (gateStep st s t b).state.pending_emotion_time = t) ∧
    (∀ x : Mood, s = some x → some x = st.current_emotion →
      (gateStep st s t b).state.pending_emotion = none) := by
  cases s with
  | none =>
    by_cases hc : st.current_emotion = none
    · rw [show gateStep st none t b =
        ⟨⟨st.current_emotion, none, st.pending_emotion_time⟩, none, none⟩ by
          simp [gateStep, hc]]
      exact ⟨by simp, by simp, fun x hx => absurd hx (by simp),
        fun x hx => absurd hx (by simp)⟩
    · rw [show gateStep st none t b = ⟨st, none, none⟩ by simp [gateStep, hc]]
      exact ⟨hinv, by simp, fun x hx => absurd hx (by simp),
        fun x hx => absurd hx (by simp)⟩
  | some y =>
    by_cases hs : (some y : Option Mood) ≠ st.current_emotion
    · by_cases hp : st.pending_emotion = some y
      · by_cases ht : t - st.pending_emotion_time ≥ emotion_stability_threshold
        · rw [gateStep_fire st y t b hs hp ht]
          refine ⟨by simp, by simp, ?_, ?_⟩
          · intro x hx _ hx2
            cases Option.some.inj hx
            exact absurd hp hx2
          · intro x hx hx1
            cases Option.some.inj hx
            exact absurd hx1 hs
        · rw [gateStep_hold st y t b hs hp ht]
          refine ⟨hinv, by simp, ?_, ?_⟩
          · intro x hx _ hx2
            cases Option.some.inj hx
            exact absurd hp hx2
          · intro x hx hx1
            cases Option.some.inj hx
            exact absurd hx1 hs
      · rw [gateStep_arm st y t b hs hp]
        refine ⟨fun _ => by simpa using hs, by simp, ?_, ?_⟩
        · intro x hx _ _
          cases Option.some.inj hx
          exact ⟨rfl, rfl⟩
        · intro x hx hx1
          cases Option.some.inj hx
          exact absurd hx1 hs
    · push_neg at hs
      rw [gateStep_same st y t b hs.symm]
      refine ⟨by simp, by simp, ?_, ?_⟩
      · intro x hx hx1 _
        cases Option.some.inj hx
        exact absurd hs hx1
      · intro x hx _
        cases Option.some.inj hx
        rfl

/-- Witness for C9 at a concrete state with committed happy and pending sad,
seeing a fresh neutral candidate at time 7. -/
theorem pending_differs_invariant_witness :
    ((gateStep ⟨some Mood.happy, some Mood.sad, 0⟩ (some Mood.neutral) 7
        false).state.pending_emotion.isSome →
      (gateStep ⟨some Mood.happy, some Mood.sad, 0⟩ (some Mood.neutral) 7
        false).state.pending_emotion ≠
      (gateStep ⟨some Mood.happy, some Mood.sad, 0⟩ (some Mood.neutral) 7
        false).state.current_emotion) ∧
    ((gateStep ⟨some Mood.happy, some Mood.sad, 0⟩ (some Mood.neutral) 7
        false).commit.isSome →
      (gateStep ⟨some Mood.happy, some Mood.sad, 0⟩ (some Mood.neutral) 7
        false).state.pending_emotion = none) ∧
    (∀ x : Mood, (some Mood.neutral : Option Mood) = some x →
      some x ≠ (some Mood.happy : Option Mood) →
      (some Mood.sad : Option Mood) ≠ some x →
      (gateStep ⟨some Mood.happy, some Mood.sad, 0⟩ (some Mood.neutral) 7
        false).state.pending_emotion = some x ∧
      (gateStep ⟨some Mood.happy, some Mood.sad, 0⟩ (some Mood.neutral) 7
        false).state.pending_emotion_time = 7) ∧
    (∀ x : Mood, (some Mood.neutral : Option Mood) = some x →
      some x = (some Mood.happy : Option Mood) →
      (gateStep ⟨some Mood.happy, some Mood.sad, 0⟩ (some Mood.neutral) 7
        false).state.pending_emotion = none) :=
  pending_differs_invariant ⟨some Mood.happy, some Mood.sad, 0⟩
    (some Mood.neutral) 7 false (fun _ => by decide)

/-- C6 as stated is false on the code: it is not the case that on every
frame with an idle mixer and an existing committed mood a replay is
triggered. Concretely, with committed mood happy and smoothed mood sad (an
in-progress candidate), the idle mixer triggers nothing: the busy status is
only consulted in the branch where the smoothed mood equals the committed
one. -/
theorem replay_not_every_frame :
    ¬ ∀ (st : GateState) (s : Option Mood) (t : ℚ),
        st.current_emotion ≠ none →
        (gateStep st s t false).replay = st.current_emotion := by
  intro hcl
  have h := hcl ⟨some Mood.happy, none, 0⟩ (some Mood.sad) 0 (by simp)
  have he : (gateStep ⟨some Mood.happy, none, 0⟩ (some Mood.sad) 0
      false).replay = none := by
    rw [gateStep_arm _ Mood.sad 0 false (by simp) (by simp)]
  rw [he] at h
  exact Option.noConfusion h

/-- C6 amended: the busy poll and the replay trigger live only in the branch
where the frame's smoothed mood equals the committed mood; on such an
analyzed frame an idle mixer re-triggers the selector for the committed mood,
a busy mixer triggers nothing, and frames whose smoothed mood differs from
the committed mood (or is None) never trigger a replay. -/
theorem replay_on_idle_same_mood (st : GateState) (s : Mood) (t : ℚ) (b : Bool)
    (hc : st.current_emotion = some s) :
    (gateStep st (some s) t false).replay = some s ∧
    (gateStep st (some s) t true).replay = none ∧
    (∀ s' : Mood, some s' ≠ st.current_emotion →
      (gateStep st (some s') t b).replay = none) ∧
    (gateStep st none t b).replay = none := by
  refine ⟨?_, ?_, ?_, ?_⟩
  · rw [gateStep_same st s t false hc]
    rfl
  · rw [gateStep_same st s t true hc]
    rfl
  · intro s' hs'
    by_cases hp : st.pending_emotion = some s'
    · by_cases ht : t - st.pending_emotion_time ≥ emotion_stability_threshold
      · rw [gateStep_fire st s' t b hs' hp ht]
      · rw [gateStep_hold st s' t b hs' hp ht]
    · rw [gateStep_arm st s' t b hs' hp]
  · simp [gateStep, hc]

/-- Witness for the amended C6 at a concrete state committed to neutral. -/
theorem replay_on_idle_same_mood_witness :
    (gateStep ⟨some Mood.neutral, none, 0⟩ (some Mood.neutral) 1
      false).replay = some Mood.neutral ∧
    (gateStep ⟨some Mood.neutral, none, 0⟩ (some Mood.neutral) 1
      true).replay = none ∧
    (∀ s' : Mood, some s' ≠ (some Mood.neutral : Option Mood) →
      (gateStep ⟨some Mood.neutral, none, 0⟩ (some s') 1 true).replay =
        none) ∧
    (gateStep ⟨some Mood.neutral, none, 0⟩ none 1 true).replay = none :=
  replay_on_idle_same_mood ⟨some Mood.neutral, none, 0⟩ Mood.neutral 1 true rfl

/-- The console lines printed by `play_song_for_emotion`: the no-songs
warning (line 167), the now-playing line (line 181), and the error line of
the `except` handler (line 183). -/
inductive LogEvent where
  | noSongs (emotion : Mood)
  | nowPlaying (song : String)
  | errorPlaying
deriving DecidableEq, Repr

/-- The player's observable state: `self.current_song` (line 46) and the
track the pygame mixer currently has loaded and playing (`none` after
`stop`). -/
structure PlayerState where
  current_song : Option String
  mixer : Option String
deriving DecidableEq, Repr

/-- `play_song_for_emotion` (lines 159-183). `self.songs` is built with all
three mood keys (line 70), so the `emotion not in self.songs` half of the
guard of line 166 is vacuous in this typed model and only the emptiness half
remains. `random.choice` is modelled by an oracle index reduced modulo the
list length; `loadOk` says whether the pygame `load`/`play` calls of the
`try` block succeed. Returns the new player state, the track that started
playing (None when the bucket was empty or an exception struck), and the
printed log lines. On the non-empty path the mixer is stopped (line 174)
before the `try` block, and on an exception `self.current_song` keeps its
previous value because line 180 is never reached. -/
def play_song_for_emotion (songs : Mood → List String) (st : PlayerState)
    (emotion : Mood) (choice : ℕ) (loadOk : Bool) :
    PlayerState × Option String × List LogEvent :=
  if songs emotion = [] then
    (st, none, [LogEvent.noSongs emotion])
  else
    let song := (songs emotion).getD (choice % (songs emotion).length) ""
    if loadOk then
      (⟨some song, some song⟩, some song, [LogEvent.nowPlaying song])
    else
      (⟨st.current_song, none⟩, none, [LogEvent.errorPlaying])

/-- C7: selecting a mood whose catalog bucket is empty returns no track, logs
the warning, and leaves the whole player state (current song and playing
track) unchanged; selecting a mood with a non-empty bucket always selects a
track drawn from that mood's list, and on a successful load it is played and
recorded. -/
theorem selector_empty_bucket_and_selection (songs : Mood → List String)
    (st : PlayerState) (emotion : Mood) (choice : ℕ) (loadOk : Bool) :
    (songs emotion = [] →
      play_song_for_emotion songs st emotion choice loadOk =
        (st, none, [LogEvent.noSongs emotion])) ∧
    (songs emotion ≠ [] →
      (songs emotion).getD (choice % (songs emotion).length) "" ∈
        songs emotion ∧
      play_song_for_emotion songs st emotion choice true =
        (⟨some ((songs emotion).getD (choice % (songs emotion).length) ""),
          some ((songs emotion).getD (choice % (songs emotion).length) "")⟩,
         some ((songs emotion).getD (choice % (songs emotion).length) ""),
         [LogEvent.nowPlaying
           ((songs emotion).getD (choice % (songs emotion).length) "")])) := by
  constructor
  · intro hempty
    simp [play_song_for_emotion, hempty]
  · intro hne
    have hlen : 0 < (songs emotion).length := List.length_pos.mpr hne
    have hidx : choice % (songs emotion).length < (songs emotion).length :=
      Nat.mod_lt _ hlen
    constructor
    · rw [List.getD_eq_getElem _ _ hidx]
      exact List.getElem_mem hidx
    · simp [play_song_for_emotion, hne]

/-- The example catalog of the spec's end-to-end scenario:
`{happy: [a.mp3], sad: [b.mp3], neutral: []}`. -/
def sampleSongs : Mood → List String
  | Mood.happy => ["a.mp3"]
  | Mood.sad => ["b.mp3"]
  | Mood.neutral => []

/-- Witness for C7 on the spec's example catalog: the empty neutral bucket
changes nothing, and the happy bucket yields its only track. -/
theorem selector_empty_bucket_and_selection_witness :
    play_song_for_emotion sampleSongs ⟨none, none⟩ Mood.neutral 0 true =
      (⟨none, none⟩, none, [LogEvent.noSongs Mood.neutral]) ∧
    play_song_for_emotion sampleSongs ⟨none, none⟩ Mood.happy 0 true =
      (⟨some "a.mp3", some "a.mp3"⟩, some "a.mp3",
        [LogEvent.nowPlaying "a.mp3"]) := by
  constructor
  · exact (selector_empty_bucket_and_selection sampleSongs
      ⟨none, none⟩ Mood.neutral 0 true).1 rfl
  · have h := (selector_empty_bucket_and_selection sampleSongs
      ⟨none, none⟩ Mood.happy 0 true).2 (by simp [sampleSongs])
    simpa [sampleSongs] using h.2

/-- C8: when the pygame load/play operations fail on a non-empty bucket, the
exception is absorbed (the function still returns normally), the error is
logged, and `self.current_song` is not updated to the failed track — only the
stop that preceded the `try` block is observable. -/
theorem selector_failure_absorbed (songs : Mood → List String)
    (st : PlayerState) (emotion : Mood) (choice : ℕ)
    (hne : songs emotion ≠ []) :
    play_song_for_emotion songs st emotion choice false =
      (⟨st.current_song, none⟩, none, [LogEvent.errorPlaying]) ∧
    (play_song_for_emotion songs st emotion choice false).1.current_song =
      st.current_song := by
  constructor
  · simp [play_song_for_emotion, hne]
  · simp [play_song_for_emotion, hne]

/-- Witness for C8: a failing load on the happy bucket keeps the previously
recorded song and logs the error. -/
theorem selector_failure_absorbed_witness :
    play_song_for_emotion sampleSongs
        ⟨some "old.mp3", some "old.mp3"⟩ Mood.happy 4 false =
      (⟨some "old.mp3", none⟩, none, [LogEvent.errorPlaying]) :=
  (selector_failure_absorbed sampleSongs
    ⟨some "old.mp3", some "old.mp3"⟩ Mood.happy 4 (by simp [sampleSongs])).1
